import Mathlib

/-!
Verification development for the `NNRatios` trading strategy
(`src/strategies/nn_ratios.py`).

The strategy keeps a panel of per-ticker, per-date observations (a price
column and eleven accounting-ratio columns), trains a small regression
network once, and on every call scores the latest cross-section and turns
the predictions into equal-weighted long/short portfolio weights.

The embedding below models:
  * pandas cells as `Option ℚ` (`none` is `NaN`; real floats are modelled
    by exact rationals);
  * `NNRatios._prepare_data` (forward price difference, division by the
    lagged price, `fillna(0)`);
  * the portfolio-formation part of `NNRatios.create_portfolio`
    (latest-date filter, `isin(available_tickers)`, `dropna`, quantile
    cutoffs via `np.median` / `np.quantile`, the long/short bucketing and
    the two in-place normalization passes);
  * the train-once gating (`self.train_interval`) as a state machine whose
    model component is an abstract function fitted by an abstract `fit`;
  * the `NNRatiosRegression` network over `ℝ` with `Real.tanh`.
-/

namespace NNRatios

/-- One row of the strategy panel: the `ticker` and `date` key columns, the
`price` column and the accounting-ratio feature columns (`columns_x`).
A `none` cell is a pandas `NaN`. -/
structure Row where
  ticker : String
  date : ℤ
  price : Option ℚ
  features : List (Option ℚ)
deriving DecidableEq

/-- `NaN`-propagating subtraction, as pandas `diff` behaves on cells. -/
def optSub (a b : Option ℚ) : Option ℚ :=
  match a, b with
  | some x, some y => some (x - y)
  | _, _ => none

/-- The cell `next_price / price - 1` computed by the `apply` lambda in
`_prepare_data`, with `NaN` propagation.  (A zero price, which pandas turns
into an infinity, is outside the modelled domain; no theorem below divides
by zero.) -/
def optRet (next price : Option ℚ) : Option ℚ :=
  match next, price with
  | some n, some p => some (n / p - 1)
  | _, _ => none

/-- `fillna(0)` on a single cell. -/
def fillna (o : Option ℚ) : ℚ := o.getD 0

/-- `price.diff().shift(-1)` on the (date-sorted) price column of one
ticker: entry `i` is `price[i+1] - price[i]`, and the final entry is
`NaN`. -/
def nextPrices : List (Option ℚ) → List (Option ℚ)
  | [] => []
  | [_] => [none]
  | p :: q :: rest => optSub q p :: nextPrices (q :: rest)

/-- `sort_values(by=['date'])` on a block of rows. -/
def sortByDate (l : List Row) : List Row :=
  List.insertionSort (fun a b => a.date ≤ b.date) l

/-- The date-sorted rows of a single ticker,
`strategy_data[strategy_data['ticker'] == ticker].sort_values(by=['date'])`. -/
def tickerRows (data : List Row) (t : String) : List Row :=
  sortByDate (data.filter (fun r => r.ticker = t))

/-- The `'return'` column `_prepare_data` builds for one ticker, after
`fillna(0)`: `price.diff().shift(-1) / price - 1`, `NaN`s filled with 0. -/
def returnsOf (data : List Row) (t : String) : List ℚ :=
  ((nextPrices ((tickerRows data t).map Row.price)).zip
      ((tickerRows data t).map Row.price)).map
    (fun pr => fillna (optRet pr.1 pr.2))

/-- The feature block (`columns_x`) of one ticker after `fillna(0)`. -/
def featuresOf (data : List Row) (t : String) : List (List ℚ) :=
  (tickerRows data t).map (fun r => r.features.map fillna)

/-- `strategy_data['ticker'].unique()`: tickers in order of first
appearance. -/
def uniqueTickers (data : List Row) : List String :=
  (data.map Row.ticker).foldl (fun acc t => if t ∈ acc then acc else acc ++ [t]) []

/-- `NNRatios._prepare_data`: per ticker, sort by date, build the
next-period `'return'` target, fill `NaN`s with 0, concatenate, and return
the `(train_x, train_y)` pair. -/
def prepare_data (data : List Row) : List (List ℚ) × List ℚ :=
  (((uniqueTickers data).map (fun t => featuresOf data t)).flatten,
   ((uniqueTickers data).map (fun t => returnsOf data t)).flatten)

/-! ## Portfolio formation (`NNRatios.create_portfolio`) -/

/-- `dropna()` keeps a row iff no cell of it is `NaN`. -/
def rowComplete (r : Row) : Bool :=
  r.price.isSome && r.features.all (fun o => o.isSome)

/-- `max(strategy_data['date'].unique())` (junk value 0 on an empty panel;
the Python code raises there). -/
def latestDate (data : List Row) : ℤ :=
  match data with
  | [] => 0
  | r :: rs => rs.foldl (fun m s => max m s.date) r.date

/-- The scored cross-section `latest_data`: rows at the latest date whose
ticker is in `available_tickers`, with `NaN`-carrying rows dropped. -/
def crossSection (data : List Row) (avail : List String) : List Row :=
  (data.filter (fun r => r.date = latestDate data && decide (r.ticker ∈ avail))).filter
    rowComplete

/-- The feature vector fed to the model for one cross-section row. -/
def featureVec (r : Row) : List ℚ := r.features.map fillna

/-- The prediction column: the (abstract, already-fitted) model applied to
every cross-section row. -/
def crossPreds (predict : List ℚ → ℚ) (data : List Row) (avail : List String) : List ℚ :=
  (crossSection data avail).map (fun r => predict (featureVec r))

/-- Linear interpolation into a sorted list at fractional position
`pos`: the value between entries `⌊pos⌋` and `⌊pos⌋ + 1` (clamped to the
last entry). -/
def interpAt (s : List ℚ) (pos : ℚ) : ℚ :=
  s.getD (⌊pos⌋).toNat 0
    + (pos - ((⌊pos⌋).toNat : ℚ))
      * (s.getD (min ((⌊pos⌋).toNat + 1) (s.length - 1)) 0 - s.getD (⌊pos⌋).toNat 0)

/-- `np.quantile(·, q)` on a sorted nonempty list: linear interpolation at
position `q * (n - 1)`. -/
def quantileSorted (s : List ℚ) (q : ℚ) : ℚ :=
  interpAt s (q * ((s.length : ℚ) - 1))

/-- `np.quantile(l, q)` with the default linear interpolation. -/
def npQuantile (l : List ℚ) (q : ℚ) : ℚ :=
  if l = [] then 0 else quantileSorted (List.insertionSort (fun a b => a ≤ b) l) q

/-- `np.median(l)`: the middle element of the sorted list, or the mean of
the two middle elements when the length is even. -/
def npMedian (l : List ℚ) : ℚ :=
  let s := List.insertionSort (fun a b => a ≤ b) l
  if s.length = 0 then 0
  else if s.length % 2 = 1 then s.getD (s.length / 2) 0
  else (s.getD (s.length / 2 - 1) 0 + s.getD (s.length / 2) 0) / 2

/-- The `(upper_cutoff, lower_cutoff)` pair chosen by the decision rule.
The final branch is unreachable: `__init__` asserts the rule is one of the
three strings. -/
def cutoffs (rule : String) (preds : List ℚ) : ℚ × ℚ :=
  if rule = "median" then (npMedian preds, npMedian preds)
  else if rule = "quartile" then (npQuantile preds (3/4), npQuantile preds (1/4))
  else if rule = "octile" then (npQuantile preds (7/8), npQuantile preds (1/8))
  else (0, 0)

/-- The bucketing comprehension
`[1 if x>upper_cutoff else -1 if x<lower_cutoff else 0 for x in preds]`. -/
def classifyPreds (rule : String) (preds : List ℚ) : List ℤ :=
  preds.map (fun x =>
    if (cutoffs rule preds).1 < x then 1
    else if x < (cutoffs rule preds).2 then -1 else 0)

/-- `number_long`: how many tickers are classified long. -/
def longCount (rule : String) (preds : List ℚ) : ℕ :=
  (classifyPreds rule preds).count 1

/-- `number_short`: how many tickers are classified short. -/
def shortCount (rule : String) (preds : List ℚ) : ℕ :=
  (classifyPreds rule preds).count (-1)

/-- One in-place replacement pass `preds.loc[preds == target] = v`. -/
def replacePass (target v : ℚ) (l : List ℚ) : List ℚ :=
  l.map (fun x => if x = target then v else x)

/-- The two guarded normalization passes of `create_portfolio`: longs
become `1 / number_long` (when `number_long > 0`), then shorts become
`-1 / number_short` (when `number_short > 0`). -/
def normalizeWeights (cls : List ℤ) : List ℚ :=
  let l0 : List ℚ := cls.map Int.cast
  let L : ℕ := cls.count 1
  let S : ℕ := cls.count (-1)
  let l1 := if 0 < L then replacePass 1 (1 / (L : ℚ)) l0 else l0
  if 0 < S then replacePass (-1) (-(1 / (S : ℚ))) l1 else l1

/-- The portfolio-formation half of `create_portfolio`: the returned
`preds.to_dict()['prediction']` mapping, as the (ticker, weight) pairs of
the cross-section. -/
def formPortfolio (predict : List ℚ → ℚ) (rule : String)
    (data : List Row) (avail : List String) : List (String × ℚ) :=
  ((crossSection data avail).map Row.ticker).zip
    (normalizeWeights (classifyPreds rule (crossPreds predict data avail)))

/-! ## The train-once state machine -/

/-- The mutable strategy state touched by `create_portfolio`: the
`train_interval` flag and the model (abstracted to its prediction
function). -/
structure StratState where
  trainInterval : Bool
  model : List ℚ → ℚ

/-- The state set up by `NNRatios.__init__`: `self.train_interval = True`
and a freshly initialised model. -/
def initState (m0 : List ℚ → ℚ) : StratState :=
  { trainInterval := true, model := m0 }

/-- One call to `NNRatios.create_portfolio`: when the flag is set, prepare
the data, fit the model (`fit` abstracts `Trainer.fit`) and clear the
flag; then form the portfolio from the current model. -/
def create_portfolio (fit : List (List ℚ) → List ℚ → (List ℚ → ℚ)) (rule : String)
    (st : StratState) (data : List Row) (avail : List String) :
    StratState × List (String × ℚ) :=
  let st1 : StratState :=
    if st.trainInterval then
      { trainInterval := false,
        model := fit (prepare_data data).1 (prepare_data data).2 }
    else st
  (st1, formPortfolio st1.model rule data avail)

/-- The states after each call in a sequence of `create_portfolio` calls. -/
def runStates (fit : List (List ℚ) → List ℚ → (List ℚ → ℚ)) (rule : String) :
    StratState → List (List Row × List String) → List StratState
  | _, [] => []
  | st, (d, a) :: rest =>
      let st1 := (create_portfolio fit rule st d a).1
      st1 :: runStates fit rule st1 rest

/-- Whether each call in a sequence runs the training branch: call `k`
trains iff `train_interval` is set on entry to it. -/
def runFlags (fit : List (List ℚ) → List ℚ → (List ℚ → ℚ)) (rule : String) :
    StratState → List (List Row × List String) → List Bool
  | _, [] => []
  | st, (d, a) :: rest =>
      st.trainInterval :: runFlags fit rule (create_portfolio fit rule st d a).1 rest

/-! ## The regression network (`NNRatiosRegression`) -/

/-- An `nn.Linear` layer: a weight matrix (one inner list per output
feature) and a bias vector. -/
structure LinearLayer where
  weight : List (List ℝ)
  bias : List ℝ

/-- Dot product of a weight row with the input vector. -/
noncomputable def dotprod (w x : List ℝ) : ℝ :=
  ((w.zip x).map (fun p => p.1 * p.2)).sum

/-- Applying an `nn.Linear` layer: `W x + b`, row by row. -/
noncomputable def LinearLayer.apply (l : LinearLayer) (x : List ℝ) : List ℝ :=
  (l.weight.zip l.bias).map (fun wb => dotprod wb.1 x + wb.2)

/-- `NNRatiosRegression`: its only parameters are the two linear layers
(`self.loss = nn.MSELoss()` carries no parameters). -/
structure NNRatiosRegression where
  layer_1 : LinearLayer
  layer_2 : LinearLayer

/-- `NNRatiosRegression.forward`: `layer_1`, then `Tanh`, then
`layer_2`. -/
noncomputable def NNRatiosRegression.forward (m : NNRatiosRegression) (x : List ℝ) : List ℝ :=
  LinearLayer.apply m.layer_2 ((LinearLayer.apply m.layer_1 x).map Real.tanh)

/-! ## The `__init__` decision-rule assertion -/

/-- The only check the strategy performs itself:
`assert self.decision_rule in ['median', 'quartile', 'octile']` in
`NNRatios.__init__`. -/
def initCheck (rule : String) : Except String Unit :=
  if rule = "median" ∨ rule = "quartile" ∨ rule = "octile" then Except.ok ()
  else Except.error "Warning, Decision rule is specified incorrectly!"

/-! ## Concrete fixtures used by the witness theorems -/

/-- A one-ticker panel with prices 1 then 2 on consecutive dates. -/
def c1Data : List Row :=
  [{ ticker := "A", date := 0, price := some 1, features := [] },
   { ticker := "A", date := 1, price := some 2, features := [] }]

/-- A small panel: one stale row for ticker `A`, four complete rows on the
latest date 10, and one row (`E`) with a `NaN` feature on the latest
date. -/
def exData : List Row :=
  [{ ticker := "A", date := 9, price := some 3, features := [some 9] },
   { ticker := "A", date := 10, price := some 5, features := [some 1] },
   { ticker := "B", date := 10, price := some 6, features := [some 2] },
   { ticker := "C", date := 10, price := some 7, features := [some 3] },
   { ticker := "D", date := 10, price := some 8, features := [some 4] },
   { ticker := "E", date := 10, price := some 9, features := [none] }]

def exAvail : List String := ["A", "B", "C", "D", "E"]

/-- A concrete stand-in for a fitted model: predict the first feature. -/
def exPredict : List ℚ → ℚ := fun v => v.headD 0

/-- A concrete stand-in for `Trainer.fit`. -/
def exFit : List (List ℚ) → List ℚ → (List ℚ → ℚ) := fun _ _ => exPredict

/-! ## C1: the training target -/

/-- C1 (code bug): on a ticker with prices 1 then 2, `_prepare_data`
produces the training target `(2 - 1) / 1 - 1 = 0` for the first
observation, not the forward difference over the lagged price
`(2 - 1) / 1 = 1` that the claim (and the `'return'` column name) call
for: line 141 divides the already-differenced `next_price` by `price` and
then subtracts 1 again. -/
theorem prepare_data_return_is_off_by_one :
    (prepare_data c1Data).2 = [0, 0] ∧ ((2 - 1 : ℚ) / 1 ≠ (0 : ℚ)) := by
  constructor
  · norm_num [prepare_data, c1Data, uniqueTickers, returnsOf, tickerRows, sortByDate,
      List.insertionSort, List.orderedInsert, nextPrices, optSub, optRet, fillna]
  · norm_num

/-! ## C6: the strategy's own assertion -/

/-- C6 (counterexample): the strategy does validate input itself —
`NNRatios.__init__` raises an `AssertionError` of its own when the
configured decision rule is not one of the three known strings. -/
theorem init_asserts_on_bad_rule :
    initCheck "mean" = Except.error "Warning, Decision rule is specified incorrectly!" := by
  rfl

/-- C6 (amended): the decision-rule assertion in `__init__` is the
strategy's single self-raised error: construction succeeds exactly when
the rule is `'median'`, `'quartile'` or `'octile'`. -/
theorem initCheck_ok_iff (rule : String) :
    initCheck rule = Except.ok () ↔
      (rule = "median" ∨ rule = "quartile" ∨ rule = "octile") := by
  unfold initCheck
  split
  · simp_all
  · simp_all

/-- Witness for `initCheck_ok_iff` at the rule `'median'`. -/
theorem initCheck_ok_iff_witness : initCheck "median" = Except.ok () :=
  (initCheck_ok_iff "median").mpr (Or.inl rfl)

/-! ## C7: the regression network -/

/-- C7: `forward` is exactly the second linear layer applied to the
`tanh` image of the first linear layer's output; with the 1-row
`layer_2` built in `__init__` it produces a single output, and the
output depends on nothing in the model besides the two layers. -/
theorem forward_is_linear_tanh_linear (m : NNRatiosRegression) (x : List ℝ)
    (h2 : m.layer_2.weight.length = 1) (hb : m.layer_2.bias.length = 1) :
    m.forward x = LinearLayer.apply m.layer_2 ((LinearLayer.apply m.layer_1 x).map Real.tanh)
    ∧ (m.forward x).length = 1
    ∧ ∀ m' : NNRatiosRegression, m'.layer_1 = m.layer_1 → m'.layer_2 = m.layer_2 →
        m'.forward x = m.forward x := by
  refine ⟨rfl, ?_, ?_⟩
  · simp [NNRatiosRegression.forward, LinearLayer.apply, List.length_zip, h2, hb]
  · intro m' hm1 hm2
    simp [NNRatiosRegression.forward, hm1, hm2]

/-- A concrete one-input, one-hidden-unit network. -/
def exModel : NNRatiosRegression :=
  { layer_1 := { weight := [[1]], bias := [0] },
    layer_2 := { weight := [[1]], bias := [0] } }

/-- Witness for `forward_is_linear_tanh_linear` on the concrete network. -/
theorem forward_is_linear_tanh_linear_witness : (exModel.forward [1]).length = 1 :=
  (forward_is_linear_tanh_linear exModel [1] rfl rfl).2.1

/-! ## C4: train-once gating -/

/-- A call whose entry state has the flag cleared leaves the state
untouched. -/
theorem create_portfolio_frozen (fit : List (List ℚ) → List ℚ → (List ℚ → ℚ))
    (rule : String) (st : StratState) (d : List Row) (a : List String)
    (h : st.trainInterval = false) :
    (create_portfolio fit rule st d a).1 = st := by
  simp [create_portfolio, h]

/-- From a frozen state, every later state of the run equals it. -/
theorem runStates_frozen (fit : List (List ℚ) → List ℚ → (List ℚ → ℚ)) (rule : String)
    (calls : List (List Row × List String)) :
    ∀ st : StratState, st.trainInterval = false →
      ∀ s ∈ runStates fit rule st calls, s = st := by
  induction calls with
  | nil => intro st _ s hs; simp [runStates] at hs
  | cons c rest ih =>
    intro st h s hs
    obtain ⟨d, a⟩ := c
    simp only [runStates] at hs
    rw [create_portfolio_frozen fit rule st d a h] at hs
    rcases List.mem_cons.mp hs with h1 | h1
    · exact h1
    · exact ih st h s h1

/-- From a frozen state, no later call runs the training branch. -/
theorem runFlags_frozen (fit : List (List ℚ) → List ℚ → (List ℚ → ℚ)) (rule : String)
    (calls : List (List Row × List String)) :
    ∀ st : StratState, st.trainInterval = false →
      runFlags fit rule st calls = List.replicate calls.length false := by
  induction calls with
  | nil => intro st _; rfl
  | cons c rest ih =>
    intro st h
    obtain ⟨d, a⟩ := c
    simp only [runFlags, h, List.length_cons, List.replicate_succ]
    rw [create_portfolio_frozen fit rule st d a h]
    exact congrArg (List.cons false) (ih st h)

/-- C4: starting from the `__init__` state the flag is set, so the first
`create_portfolio` call trains (and stores the model fitted on the first
call's prepared data); every state reached afterwards has the flag
cleared and carries that same fitted model, and no later call in any
sequence runs the training branch again. -/
theorem model_trained_exactly_once (fit : List (List ℚ) → List ℚ → (List ℚ → ℚ))
    (rule : String) (m0 : List ℚ → ℚ) (d0 : List Row) (a0 : List String)
    (rest : List (List Row × List String)) :
    (initState m0).trainInterval = true
    ∧ runFlags fit rule (initState m0) ((d0, a0) :: rest)
        = true :: List.replicate rest.length false
    ∧ ∀ s ∈ runStates fit rule (initState m0) ((d0, a0) :: rest),
        s.trainInterval = false
        ∧ s.model = fit (prepare_data d0).1 (prepare_data d0).2 := by
  have hstep : (create_portfolio fit rule (initState m0) d0 a0).1 =
      { trainInterval := false, model := fit (prepare_data d0).1 (prepare_data d0).2 } := rfl
  refine ⟨rfl, ?_, ?_⟩
  · simp only [runFlags, hstep, initState]
    exact congrArg (List.cons true) (runFlags_frozen fit rule rest _ rfl)
  · intro s hs
    simp only [runStates, hstep] at hs
    rcases List.mem_cons.mp hs with h1 | h1
    · subst h1; exact ⟨rfl, rfl⟩
    · have := runStates_frozen fit rule rest _ rfl s h1
      subst this; exact ⟨rfl, rfl⟩

/-- Witness for `model_trained_exactly_once`: a two-call run trains on the
first call only. -/
theorem model_trained_exactly_once_witness :
    runFlags exFit "median" (initState exPredict) [(exData, exAvail), (exData, exAvail)]
      = [true, false] := by
  have h := (model_trained_exactly_once exFit "median" exPredict exData exAvail
    [(exData, exAvail)]).2.1
  simpa using h

/-! ## The latest date and the cross-section -/

/-- The date fold of `latestDate` dominates its seed and every element. -/
theorem foldl_max_le (rs : List Row) : ∀ a : ℤ,
    a ≤ rs.foldl (fun m s => max m s.date) a
    ∧ ∀ r ∈ rs, r.date ≤ rs.foldl (fun m s => max m s.date) a := by
  induction rs with
  | nil => intro a; exact ⟨le_refl a, by simp⟩
  | cons b t ih =>
    intro a
    obtain ⟨h1, h2⟩ := ih (max a b.date)
    refine ⟨le_trans (le_max_left _ _) h1, ?_⟩
    intro r hr
    rcases List.mem_cons.mp hr with rfl | hr
    · exact le_trans (le_max_right _ _) h1
    · exact h2 r hr

/-- The date fold of `latestDate` returns its seed or an element. -/
theorem foldl_max_mem (rs : List Row) : ∀ a : ℤ,
    rs.foldl (fun m s => max m s.date) a = a
    ∨ ∃ r ∈ rs, rs.foldl (fun m s => max m s.date) a = r.date := by
  induction rs with
  | nil => intro a; exact Or.inl rfl
  | cons b t ih =>
    intro a
    rcases ih (max a b.date) with h | ⟨r, hr, hrd⟩
    · rcases max_choice a b.date with hm | hm
      · exact Or.inl (by rw [List.foldl_cons, h, hm])
      · exact Or.inr ⟨b, List.mem_cons_self b t, by rw [List.foldl_cons, h, hm]⟩
    · exact Or.inr ⟨r, List.mem_cons_of_mem _ hr, by rw [List.foldl_cons, hrd]⟩

/-- Every date of the panel is at most `latestDate`. -/
theorem le_latestDate (data : List Row) : ∀ r ∈ data, r.date ≤ latestDate data := by
  intro r hr
  cases data with
  | nil => cases hr
  | cons b t =>
    rcases List.mem_cons.mp hr with rfl | hr
    · exact (foldl_max_le t r.date).1
    · exact (foldl_max_le t b.date).2 r hr

/-- On a nonempty panel, `latestDate` is a date present in the panel. -/
theorem latestDate_mem (data : List Row) (h : data ≠ []) :
    ∃ r ∈ data, r.date = latestDate data := by
  cases data with
  | nil => exact absurd rfl h
  | cons b t =>
    rcases foldl_max_mem t b.date with h1 | ⟨r, hr, hrd⟩
    · exact ⟨b, List.mem_cons_self b t, h1.symm⟩
    · exact ⟨r, List.mem_cons_of_mem _ hr, hrd.symm⟩

/-- Membership in the scored cross-section, unfolded. -/
theorem mem_crossSection (data : List Row) (avail : List String) (r : Row) :
    r ∈ crossSection data avail ↔
      r ∈ data ∧ r.date = latestDate data ∧ r.ticker ∈ avail ∧ rowComplete r = true := by
  simp only [crossSection, List.mem_filter, Bool.and_eq_true, decide_eq_true_eq]
  tauto

/-- Every key of the returned mapping is the ticker of a scored row. -/
theorem formPortfolio_key (predict : List ℚ → ℚ) (rule : String)
    (data : List Row) (avail : List String) (p : String × ℚ)
    (hp : p ∈ formPortfolio predict rule data avail) :
    ∃ r ∈ crossSection data avail, r.ticker = p.1 := by
  have h1 : p.1 ∈ (crossSection data avail).map Row.ticker := (List.of_mem_zip hp).1
  obtain ⟨r, hr, hrt⟩ := List.mem_map.mp h1
  exact ⟨r, hr, hrt⟩

/-- C5: every scored row lies in the panel, is dated at the maximum date
present in the panel, and carries an available ticker; and every key of
the returned weight mapping is an available ticker. -/
theorem scores_exactly_latest_cross_section (predict : List ℚ → ℚ) (rule : String)
    (data : List Row) (avail : List String) :
    (∀ r ∈ crossSection data avail,
        r ∈ data ∧ r.date = latestDate data ∧ r.ticker ∈ avail)
    ∧ (∀ r ∈ data, r.date ≤ latestDate data)
    ∧ (data ≠ [] → ∃ r ∈ data, r.date = latestDate data)
    ∧ (∀ p ∈ formPortfolio predict rule data avail, p.1 ∈ avail) := by
  refine ⟨?_, le_latestDate data, latestDate_mem data, ?_⟩
  · intro r hr
    obtain ⟨h1, h2, h3, _⟩ := (mem_crossSection data avail r).mp hr
    exact ⟨h1, h2, h3⟩
  · intro p hp
    obtain ⟨r, hr, hrt⟩ := formPortfolio_key predict rule data avail p hp
    obtain ⟨_, _, h3, _⟩ := (mem_crossSection data avail r).mp hr
    exact hrt ▸ h3

/-- Witness for `scores_exactly_latest_cross_section`: on the example
panel the key `"C"` of the returned mapping is an available ticker. -/
theorem scores_exactly_latest_cross_section_witness : "C" ∈ exAvail := by
  have heval : formPortfolio exPredict "median" exData exAvail =
      [("A", -(1/2)), ("B", -(1/2)), ("C", 1/2), ("D", 1/2)] := by
    norm_num +decide [formPortfolio, crossSection, latestDate, exData, exAvail, rowComplete,
      featureVec, fillna, exPredict, List.filter, crossPreds, classifyPreds, cutoffs,
      npMedian, List.insertionSort, List.orderedInsert, normalizeWeights, replacePass,
      List.count_cons, List.count_nil, beq_iff_eq, List.zip, List.zipWith]
  refine (scores_exactly_latest_cross_section exPredict "median" exData exAvail).2.2.2
    ("C", 1/2) ?_
  rw [heval]
  simp

/-! ## C9: `NaN` rows are dropped, not zero-weighted -/

/-- C9: a ticker all of whose latest-date rows carry a `NaN` is absent
from the returned mapping (rather than present with weight 0), even when
it is listed in `available_tickers`. -/
theorem nan_row_ticker_absent (predict : List ℚ → ℚ) (rule : String)
    (data : List Row) (avail : List String) (t : String)
    (hsome : ∃ r ∈ data, r.ticker = t ∧ r.date = latestDate data ∧ rowComplete r = false)
    (hall : ∀ r ∈ data, r.ticker = t → r.date = latestDate data → rowComplete r = false) :
    t ∉ (formPortfolio predict rule data avail).map Prod.fst := by
  intro hmem
  obtain ⟨p, hp, hpt⟩ := List.mem_map.mp hmem
  obtain ⟨r, hr, hrt⟩ := formPortfolio_key predict rule data avail p hp
  obtain ⟨h1, h2, _, h4⟩ := (mem_crossSection data avail r).mp hr
  have : rowComplete r = false := hall r h1 (by rw [hrt, hpt]) h2
  rw [h4] at this
  exact absurd this (by simp)

/-- Witness for `nan_row_ticker_absent`: ticker `"E"` (whose only
latest-date row has a `NaN` feature) is missing from the mapping. -/
theorem nan_row_ticker_absent_witness :
    "E" ∉ (formPortfolio exPredict "median" exData exAvail).map Prod.fst :=
  nan_row_ticker_absent exPredict "median" exData exAvail "E"
    (by decide) (by decide)

/-! ## C10: the final observation's target -/

/-- The shifted difference column has one entry per price. -/
theorem nextPrices_length : ∀ ps : List (Option ℚ), (nextPrices ps).length = ps.length
  | [] => rfl
  | [_] => rfl
  | _ :: q :: rest => by
      simp only [nextPrices, List.length_cons]
      exact congrArg Nat.succ (nextPrices_length (q :: rest))

/-- On any nonempty price column the last filled return cell is 0: the
last `next_price` is `NaN`, so the last return is `NaN`, filled by
`fillna(0)`. -/
theorem lastret_aux : ∀ ps : List (Option ℚ), ps ≠ [] →
    (((nextPrices ps).zip ps).map (fun pr => fillna (optRet pr.1 pr.2))).getLast? = some 0
  | [], h => absurd rfl h
  | [_], _ => rfl
  | p :: q :: rest, _ => by
      have ih := lastret_aux (q :: rest) (by simp)
      obtain ⟨y, ys, hy⟩ : ∃ y ys, nextPrices (q :: rest) = y :: ys := by
        cases rest <;> exact ⟨_, _, rfl⟩
      simp only [nextPrices, List.zip_cons_cons, List.map_cons]
      rw [hy] at ih ⊢
      simp only [List.zip_cons_cons, List.map_cons] at ih ⊢
      rw [List.getLast?_cons_cons]
      exact ih

/-- Membership in the accumulating fold behind `unique()`. -/
theorem mem_foldl_unique (x : String) : ∀ (l acc : List String),
    x ∈ l.foldl (fun acc t => if t ∈ acc then acc else acc ++ [t]) acc
      ↔ x ∈ acc ∨ x ∈ l := by
  intro l
  induction l with
  | nil => intro acc; simp
  | cons b t ih =>
    intro acc
    rw [List.foldl_cons, ih]
    by_cases hb : b ∈ acc
    · simp only [if_pos hb, List.mem_cons]
      constructor
      · rintro (h | h)
        · exact Or.inl h
        · exact Or.inr (Or.inr h)
      · rintro (h | h | h)
        · exact Or.inl h
        · exact Or.inl (h ▸ hb)
        · exact Or.inr h
    · simp only [if_neg hb, List.mem_append, List.mem_singleton, List.mem_cons]
      tauto

/-- `unique()` returns exactly the tickers occurring in the panel. -/
theorem mem_uniqueTickers (data : List Row) (t : String) :
    t ∈ uniqueTickers data ↔ ∃ r ∈ data, r.ticker = t := by
  unfold uniqueTickers
  rw [mem_foldl_unique]
  simp [List.mem_map, eq_comm]

/-- C10: for every ticker of the training panel, the `'return'` target of
its chronologically last observation is exactly 0: `shift(-1)` leaves it
`NaN` and `_prepare_data` fills it with 0. -/
theorem last_return_target_zero (data : List Row) (t : String)
    (h : t ∈ uniqueTickers data) :
    (returnsOf data t).getLast? = some 0 := by
  obtain ⟨r, hr, hrt⟩ := (mem_uniqueTickers data t).mp h
  have hmemf : r ∈ (data.filter (fun s => s.ticker = t)) := by
    rw [List.mem_filter]
    exact ⟨hr, by simp [hrt]⟩
  have hmem : r ∈ tickerRows data t := by
    unfold tickerRows sortByDate
    exact ((List.perm_insertionSort _ _).mem_iff).mpr hmemf
  have hne : (tickerRows data t).map Row.price ≠ [] := by
    intro hnil
    rw [List.map_eq_nil_iff] at hnil
    rw [hnil] at hmem
    cases hmem
  exact lastret_aux _ hne

/-- Witness for `last_return_target_zero` on the example panel's ticker
`"A"`, which has two observations. -/
theorem last_return_target_zero_witness : (returnsOf exData "A").getLast? = some 0 :=
  last_return_target_zero exData "A" (by decide)

/-! ## C2 / C8: weight normalization -/

/-- The bucketing step only produces the values 1, 0, -1. -/
theorem classify_mem (rule : String) (preds : List ℚ) :
    ∀ c ∈ classifyPreds rule preds, c = 1 ∨ c = 0 ∨ c = -1 := by
  intro c hc
  obtain ⟨x, _, hx⟩ := List.mem_map.mp hc
  rw [← hx]
  split_ifs <;> simp

/-- The per-class weight after both normalization passes: `1/L` for
longs, `-1/S` for shorts, 0 for the neutral band. -/
def bucketWeight (L S : ℕ) (c : ℤ) : ℚ :=
  if c = 1 then 1 / (L : ℚ) else if c = -1 then -(1 / (S : ℚ)) else 0

/-- The two guarded in-place passes of `create_portfolio` amount to the
pointwise `bucketWeight` map (`L` and `S` being the long/short counts). -/
theorem normalizeWeights_eq (cls : List ℤ)
    (h : ∀ c ∈ cls, c = 1 ∨ c = 0 ∨ c = -1) :
    normalizeWeights cls = cls.map (bucketWeight (cls.count 1) (cls.count (-1))) := by
  have hLne : 0 < cls.count 1 → (1 / (cls.count 1 : ℚ)) ≠ -1 := by
    intro h1 hcon
    have hLpos : (0 : ℚ) < 1 / (cls.count 1 : ℚ) :=
      one_div_pos.mpr (by exact_mod_cast h1)
    rw [hcon] at hLpos
    norm_num at hLpos
  simp only [normalizeWeights, replacePass, List.map_map]
  by_cases h1 : 0 < cls.count 1 <;> by_cases h2 : 0 < cls.count (-1) <;>
    simp only [h1, h2, if_true, if_false, List.map_map]
  · -- both passes run
    refine List.map_congr_left ?_
    intro c hc
    rcases h c hc with rfl | rfl | rfl
    · have hne := hLne h1
      simp only [one_div] at hne
      simp [Function.comp_apply, bucketWeight, hne]
    · norm_num [Function.comp_apply, bucketWeight]
    · norm_num [Function.comp_apply, bucketWeight]
  · -- only the long pass runs
    have hno : -1 ∉ cls := List.count_eq_zero.mp (by omega)
    refine List.map_congr_left ?_
    intro c hc
    rcases h c hc with rfl | rfl | rfl
    · simp [Function.comp_apply, bucketWeight]
    · simp [Function.comp_apply, bucketWeight]
    · exact absurd hc hno
  · -- only the short pass runs
    have hno : 1 ∉ cls := List.count_eq_zero.mp (by omega)
    refine List.map_congr_left ?_
    intro c hc
    rcases h c hc with rfl | rfl | rfl
    · exact absurd hc hno
    · simp [Function.comp_apply, bucketWeight]
    · simp [Function.comp_apply, bucketWeight]
  · -- neither pass runs
    have hno1 : 1 ∉ cls := List.count_eq_zero.mp (by omega)
    have hno : -1 ∉ cls := List.count_eq_zero.mp (by omega)
    refine List.map_congr_left ?_
    intro c hc
    rcases h c hc with rfl | rfl | rfl
    · exact absurd hc hno1
    · simp [bucketWeight]
    · exact absurd hc hno

/-- Both normalization passes keep the list length. -/
theorem normalizeWeights_length (cls : List ℤ) :
    (normalizeWeights cls).length = cls.length := by
  simp only [normalizeWeights, replacePass]
  split_ifs <;> simp

/-- Sum of all bucketed weights, in terms of the two counts. -/
theorem sum_map_bucketWeight (L S : ℕ) : ∀ l : List ℤ,
    (∀ c ∈ l, c = 1 ∨ c = 0 ∨ c = -1) →
    (l.map (bucketWeight L S)).sum
      = (l.count 1 : ℚ) * (1 / (L : ℚ)) - (l.count (-1) : ℚ) * (1 / (S : ℚ)) := by
  intro l
  induction l with
  | nil => simp
  | cons c t ih =>
    intro h
    have hc := h c (List.mem_cons_self c t)
    have ht := ih (fun x hx => h x (List.mem_cons_of_mem _ hx))
    simp only [List.map_cons, List.sum_cons, ht, List.count_cons, beq_iff_eq]
    rcases hc with rfl | rfl | rfl
    · norm_num [bucketWeight]
      ring
    · norm_num [bucketWeight]
    · norm_num [bucketWeight]
      ring

/-- Sum of the positive bucketed weights: the long bucket only. -/
theorem sum_filter_pos_bucketWeight (L S : ℕ) (hL : 0 < L) : ∀ l : List ℤ,
    (∀ c ∈ l, c = 1 ∨ c = 0 ∨ c = -1) →
    ((l.map (bucketWeight L S)).filter (fun w => 0 < w)).sum
      = (l.count 1 : ℚ) * (1 / (L : ℚ)) := by
  have hLpos : (0 : ℚ) < 1 / (L : ℚ) := one_div_pos.mpr (by exact_mod_cast hL)
  have hb1 : bucketWeight L S 1 = 1 / (L : ℚ) := by norm_num [bucketWeight]
  have hb0 : bucketWeight L S 0 = 0 := by norm_num [bucketWeight]
  have hbm : bucketWeight L S (-1) = -(1 / (S : ℚ)) := by norm_num [bucketWeight]
  intro l
  induction l with
  | nil => simp
  | cons c t ih =>
    intro h
    have ht := ih (fun x hx => h x (List.mem_cons_of_mem _ hx))
    rcases h c (List.mem_cons_self c t) with rfl | rfl | rfl
    · rw [List.map_cons, List.filter_cons_of_pos (by rw [hb1]; simpa using hLpos),
        List.sum_cons, ht, hb1, List.count_cons_self]
      push_cast
      ring
    · rw [List.map_cons, List.filter_cons_of_neg (by rw [hb0]; simp), ht,
        List.count_cons_of_ne (by decide)]
    · rw [List.map_cons,
        List.filter_cons_of_neg (by
          rw [hbm]
          simp only [decide_eq_true_eq, not_lt]
          have hSnn : (0 : ℚ) ≤ 1 / (S : ℚ) := one_div_nonneg.mpr (Nat.cast_nonneg S)
          linarith),
        ht, List.count_cons_of_ne (by decide)]

/-- Sum of the negative bucketed weights: the short bucket only. -/
theorem sum_filter_neg_bucketWeight (L S : ℕ) (hS : 0 < S) : ∀ l : List ℤ,
    (∀ c ∈ l, c = 1 ∨ c = 0 ∨ c = -1) →
    ((l.map (bucketWeight L S)).filter (fun w => w < 0)).sum
      = (l.count (-1) : ℚ) * (-(1 / (S : ℚ))) := by
  have hSpos : (0 : ℚ) < 1 / (S : ℚ) := one_div_pos.mpr (by exact_mod_cast hS)
  have hb1 : bucketWeight L S 1 = 1 / (L : ℚ) := by norm_num [bucketWeight]
  have hb0 : bucketWeight L S 0 = 0 := by norm_num [bucketWeight]
  have hbm : bucketWeight L S (-1) = -(1 / (S : ℚ)) := by norm_num [bucketWeight]
  intro l
  induction l with
  | nil => simp
  | cons c t ih =>
    intro h
    have ht := ih (fun x hx => h x (List.mem_cons_of_mem _ hx))
    rcases h c (List.mem_cons_self c t) with rfl | rfl | rfl
    · rw [List.map_cons,
        List.filter_cons_of_neg (by
          rw [hb1]
          simp only [decide_eq_true_eq, not_lt]
          have hLnn : (0 : ℚ) ≤ 1 / (L : ℚ) := one_div_nonneg.mpr (Nat.cast_nonneg L)
          linarith),
        ht, List.count_cons_of_ne (by decide)]
    · rw [List.map_cons, List.filter_cons_of_neg (by rw [hb0]; simp), ht,
        List.count_cons_of_ne (by decide)]
    · rw [List.map_cons,
        List.filter_cons_of_pos (by rw [hbm]; simpa using hSpos),
        List.sum_cons, ht, hbm, List.count_cons_self]
      push_cast
      ring

/-- The weight list is as long as the ticker list it is zipped with. -/
theorem weights_length (predict : List ℚ → ℚ) (rule : String)
    (data : List Row) (avail : List String) :
    (normalizeWeights (classifyPreds rule (crossPreds predict data avail))).length
      = ((crossSection data avail).map Row.ticker).length := by
  simp [normalizeWeights_length, classifyPreds, crossPreds]

/-- The weight column of the returned mapping is exactly the normalized
weight list. -/
theorem formPortfolio_snd (predict : List ℚ → ℚ) (rule : String)
    (data : List Row) (avail : List String) :
    (formPortfolio predict rule data avail).map Prod.snd
      = normalizeWeights (classifyPreds rule (crossPreds predict data avail)) := by
  exact List.map_snd_zip _ _ (le_of_eq (weights_length predict rule data avail))

/-- C2: position `i` of the weight list is `1/L` when the ticker is
classified long, `-1/S` when short, and 0 otherwise; whenever longs
exist the positive weights of the returned mapping sum to 1, and whenever
shorts exist the negative weights sum to -1. -/
theorem equal_weights_within_buckets (predict : List ℚ → ℚ) (rule : String)
    (data : List Row) (avail : List String) (i : ℕ) :
    (normalizeWeights (classifyPreds rule (crossPreds predict data avail))).getD i 0
      = bucketWeight (longCount rule (crossPreds predict data avail))
          (shortCount rule (crossPreds predict data avail))
          ((classifyPreds rule (crossPreds predict data avail)).getD i 0)
    ∧ (0 < longCount rule (crossPreds predict data avail) →
        (((formPortfolio predict rule data avail).map Prod.snd).filter
            (fun w => 0 < w)).sum = 1)
    ∧ (0 < shortCount rule (crossPreds predict data avail) →
        (((formPortfolio predict rule data avail).map Prod.snd).filter
            (fun w => w < 0)).sum = -1) := by
  have hmem := classify_mem rule (crossPreds predict data avail)
  have heq : normalizeWeights (classifyPreds rule (crossPreds predict data avail))
      = (classifyPreds rule (crossPreds predict data avail)).map
          (bucketWeight (longCount rule (crossPreds predict data avail))
            (shortCount rule (crossPreds predict data avail))) :=
    normalizeWeights_eq _ hmem
  refine ⟨?_, ?_, ?_⟩
  · rw [heq]
    rcases lt_or_ge i (classifyPreds rule (crossPreds predict data avail)).length with hi | hi
    · obtain ⟨v, hv⟩ : ∃ v, (classifyPreds rule (crossPreds predict data avail))[i]? = some v :=
        ⟨_, List.getElem?_eq_getElem hi⟩
      rw [List.getD_eq_getElem?_getD, List.getD_eq_getElem?_getD, List.getElem?_map, hv]
      rfl
    · rw [List.getD_eq_default _ _ (by simpa using hi), List.getD_eq_default _ _ hi]
      norm_num [bucketWeight]
  · intro hL
    rw [formPortfolio_snd, heq, sum_filter_pos_bucketWeight _ _ hL _ hmem]
    exact mul_one_div_cancel (Nat.cast_ne_zero.mpr hL.ne')
  · intro hS
    rw [formPortfolio_snd, heq, sum_filter_neg_bucketWeight _ _ hS _ hmem, mul_neg]
    exact congrArg Neg.neg (mul_one_div_cancel (Nat.cast_ne_zero.mpr hS.ne'))

/-- Evaluation of the example cross-section's predictions. -/
theorem exCrossPreds_eval : crossPreds exPredict exData exAvail = [1, 2, 3, 4] := by
  norm_num [crossPreds, crossSection, latestDate, exData, exAvail, rowComplete,
    featureVec, fillna, exPredict, List.filter]

/-- Evaluation of the example long count under the median rule. -/
theorem exLongCount_eval : longCount "median" [1, 2, 3, 4] = 2 := by
  norm_num +decide [longCount, classifyPreds, cutoffs, npMedian,
    List.insertionSort, List.orderedInsert, List.count_cons, List.count_nil, beq_iff_eq]

/-- Evaluation of the example short count under the median rule. -/
theorem exShortCount_eval : shortCount "median" [1, 2, 3, 4] = 2 := by
  norm_num +decide [shortCount, classifyPreds, cutoffs, npMedian,
    List.insertionSort, List.orderedInsert, List.count_cons, List.count_nil, beq_iff_eq]

/-- Witness for `equal_weights_within_buckets`: on the example call the
positive weights sum to 1. -/
theorem equal_weights_within_buckets_witness :
    (((formPortfolio exPredict "median" exData exAvail).map Prod.snd).filter
        (fun w => 0 < w)).sum = 1 := by
  apply (equal_weights_within_buckets exPredict "median" exData exAvail 0).2.1
  rw [exCrossPreds_eval, exLongCount_eval]
  norm_num

/-- C8: whenever at least one ticker is long and at least one is short,
the returned weights sum to exactly 0 and every weight is one of 0,
`1/L`, `-1/S`. -/
theorem long_short_weights_sum_zero (predict : List ℚ → ℚ) (rule : String)
    (data : List Row) (avail : List String)
    (hL : 0 < longCount rule (crossPreds predict data avail))
    (hS : 0 < shortCount rule (crossPreds predict data avail)) :
    ((formPortfolio predict rule data avail).map Prod.snd).sum = 0
    ∧ ∀ p ∈ formPortfolio predict rule data avail,
        p.2 = 0 ∨ p.2 = 1 / (longCount rule (crossPreds predict data avail) : ℚ)
          ∨ p.2 = -(1 / (shortCount rule (crossPreds predict data avail) : ℚ)) := by
  have hmem := classify_mem rule (crossPreds predict data avail)
  have heq : normalizeWeights (classifyPreds rule (crossPreds predict data avail))
      = (classifyPreds rule (crossPreds predict data avail)).map
          (bucketWeight (longCount rule (crossPreds predict data avail))
            (shortCount rule (crossPreds predict data avail))) :=
    normalizeWeights_eq _ hmem
  constructor
  · rw [formPortfolio_snd, heq, sum_map_bucketWeight _ _ _ hmem]
    have h1 : ((longCount rule (crossPreds predict data avail) : ℚ))
        * (1 / (longCount rule (crossPreds predict data avail) : ℚ)) = 1 :=
      mul_one_div_cancel (Nat.cast_ne_zero.mpr hL.ne')
    have h2 : ((shortCount rule (crossPreds predict data avail) : ℚ))
        * (1 / (shortCount rule (crossPreds predict data avail) : ℚ)) = 1 :=
      mul_one_div_cancel (Nat.cast_ne_zero.mpr hS.ne')
    exact sub_eq_zero.mpr (h1.trans h2.symm)
  · rintro ⟨t, w⟩ hp
    have h2 : w ∈ normalizeWeights (classifyPreds rule (crossPreds predict data avail)) :=
      (List.of_mem_zip hp).2
    rw [heq] at h2
    obtain ⟨c, hc, hcw⟩ := List.mem_map.mp h2
    rcases hmem c hc with rfl | rfl | rfl
    · right; left
      rw [← hcw]
      norm_num [bucketWeight]
    · left
      rw [← hcw]
      norm_num [bucketWeight]
    · right; right
      rw [← hcw]
      norm_num [bucketWeight]

/-- Witness for `long_short_weights_sum_zero`: since the example call has
two longs and two shorts, its weights sum to 0. -/
theorem long_short_weights_sum_zero_witness :
    ((formPortfolio exPredict "median" exData exAvail).map Prod.snd).sum = 0 := by
  refine (long_short_weights_sum_zero exPredict "median" exData exAvail ?_ ?_).1
  · rw [exCrossPreds_eval, exLongCount_eval]
    norm_num
  · rw [exCrossPreds_eval, exShortCount_eval]
    norm_num

/-! ## C3: quantile cutoffs -/

/-- In a sorted list, `getD` (with any in-range indices) is monotone. -/
theorem sorted_getD_mono (s : List ℚ) (hs : s.Sorted (fun a b => a ≤ b)) (i j : ℕ)
    (hij : i ≤ j) (hj : j < s.length) : s.getD i 0 ≤ s.getD j 0 := by
  have hi : i < s.length := lt_of_le_of_lt hij hj
  rw [List.getD_eq_getElem?_getD, List.getElem?_eq_getElem hi,
    List.getD_eq_getElem?_getD, List.getElem?_eq_getElem hj]
  simp only [Option.getD_some]
  exact hs.rel_get_of_le (by exact_mod_cast hij : (⟨i, hi⟩ : Fin s.length) ≤ ⟨j, hj⟩)

/-- Linear interpolation into a sorted list is monotone in the
position. -/
theorem interpAt_mono (s : List ℚ) (hs : s.Sorted (fun a b => a ≤ b)) (hne : s ≠ [])
    (p1 p2 : ℚ) (hp0 : 0 ≤ p1) (hp12 : p1 ≤ p2) (hp2 : p2 ≤ (s.length : ℚ) - 1) :
    interpAt s p1 ≤ interpAt s p2 := by
  unfold interpAt
  have hn1 : 1 ≤ s.length := List.length_pos.mpr hne
  have h1nn : 0 ≤ ⌊p1⌋ := Int.floor_nonneg.mpr hp0
  have h2nn : 0 ≤ ⌊p2⌋ := Int.floor_nonneg.mpr (hp0.trans hp12)
  have hc1 : ((⌊p1⌋.toNat : ℕ) : ℚ) = ((⌊p1⌋ : ℤ) : ℚ) := by
    exact_mod_cast congrArg (fun z : ℤ => (z : ℚ)) (Int.toNat_of_nonneg h1nn)
  have hc2 : ((⌊p2⌋.toNat : ℕ) : ℚ) = ((⌊p2⌋ : ℤ) : ℚ) := by
    exact_mod_cast congrArg (fun z : ℤ => (z : ℚ)) (Int.toNat_of_nonneg h2nn)
  have hi2top : ⌊p2⌋ ≤ (s.length : ℤ) - 1 := by
    have h := Int.floor_le_floor hp2
    rwa [show ((s.length : ℚ) - 1) = (((s.length : ℤ) - 1 : ℤ) : ℚ) by push_cast; ring,
      Int.floor_intCast] at h
  have hi2 : ⌊p2⌋.toNat ≤ s.length - 1 := by omega
  have hi12 : ⌊p1⌋.toNat ≤ ⌊p2⌋.toNat := Int.toNat_le_toNat (Int.floor_le_floor hp12)
  have hi1 : ⌊p1⌋.toNat ≤ s.length - 1 := le_trans hi12 hi2
  set i1 := ⌊p1⌋.toNat with hdefi1
  set i2 := ⌊p2⌋.toNat with hdefi2
  set j1 := min (i1 + 1) (s.length - 1) with hdefj1
  set j2 := min (i2 + 1) (s.length - 1) with hdefj2
  have hj1 : j1 ≤ s.length - 1 := min_le_right _ _
  have hj2 : j2 ≤ s.length - 1 := min_le_right _ _
  have hij1 : i1 ≤ j1 := le_min (Nat.le_succ i1) hi1
  have hij2 : i2 ≤ j2 := le_min (Nat.le_succ i2) hi2
  have ha1b1 : s.getD i1 0 ≤ s.getD j1 0 := sorted_getD_mono s hs i1 j1 hij1 (by omega)
  have ha2b2 : s.getD i2 0 ≤ s.getD j2 0 := sorted_getD_mono s hs i2 j2 hij2 (by omega)
  have hf1l : 0 ≤ p1 - (i1 : ℚ) := by
    have := Int.floor_le p1
    rw [hc1]
    linarith
  have hf1u : p1 - (i1 : ℚ) ≤ 1 := by
    have := Int.lt_floor_add_one p1
    rw [hc1]
    linarith
  have hf2l : 0 ≤ p2 - (i2 : ℚ) := by
    have := Int.floor_le p2
    rw [hc2]
    linarith
  rcases eq_or_lt_of_le hi12 with heq | hlt
  · have hj : j1 = j2 := by rw [hdefj1, hdefj2, heq]
    rw [heq, hj]
    have hd : 0 ≤ s.getD j2 0 - s.getD i2 0 := by linarith
    have hfr : p1 - (i2 : ℚ) ≤ p2 - (i2 : ℚ) := by linarith
    have hmul := mul_le_mul_of_nonneg_right hfr hd
    rw [← heq]
    have hd1 : 0 ≤ s.getD j2 0 - s.getD i1 0 := by rw [heq]; linarith
    have hfr1 : p1 - (i1 : ℚ) ≤ p2 - (i1 : ℚ) := by linarith
    have hmul1 := mul_le_mul_of_nonneg_right hfr1 hd1
    rw [heq] at hmul1 ⊢
    linarith
  · have hj1i2 : j1 ≤ i2 := by omega
    have hb1a2 : s.getD j1 0 ≤ s.getD i2 0 := sorted_getD_mono s hs j1 i2 hj1i2 (by omega)
    have h1b : s.getD i1 0 + (p1 - (i1 : ℚ)) * (s.getD j1 0 - s.getD i1 0)
        ≤ s.getD j1 0 := by
      have hmul := mul_le_mul_of_nonneg_right hf1u (by linarith : 0 ≤ s.getD j1 0 - s.getD i1 0)
      rw [one_mul] at hmul
      linarith
    have h2a : s.getD i2 0
        ≤ s.getD i2 0 + (p2 - (i2 : ℚ)) * (s.getD j2 0 - s.getD i2 0) := by
      have hmul := mul_nonneg hf2l (by linarith : (0:ℚ) ≤ s.getD j2 0 - s.getD i2 0)
      linarith
    linarith

/-- `np.quantile` with linear interpolation is monotone in `q` on
`[0, 1]`. -/
theorem npQuantile_mono (l : List ℚ) (q1 q2 : ℚ)
    (h0 : 0 ≤ q1) (h12 : q1 ≤ q2) (h2 : q2 ≤ 1) :
    npQuantile l q1 ≤ npQuantile l q2 := by
  unfold npQuantile
  split_ifs with h
  · exact le_refl 0
  · unfold quantileSorted
    have hsorted : (List.insertionSort (fun a b => a ≤ b) l).Sorted (fun a b => a ≤ b) :=
      List.sorted_insertionSort _ l
    have hne : List.insertionSort (fun a b => a ≤ b) l ≠ [] := fun hcon =>
      h (List.Perm.eq_nil (hcon ▸ (List.perm_insertionSort _ l).symm))
    have hnn : (0 : ℚ) ≤ ((List.insertionSort (fun a b => a ≤ b) l).length : ℚ) - 1 := by
      have h1 : 1 ≤ (List.insertionSort (fun a b => a ≤ b) l).length :=
        List.length_pos.mpr hne
      have h1c : (1 : ℚ) ≤ ((List.insertionSort (fun a b => a ≤ b) l).length : ℚ) := by
        exact_mod_cast h1
      linarith
    exact interpAt_mono _ hsorted hne _ _ (mul_nonneg h0 hnn)
      (mul_le_mul_of_nonneg_right h12 hnn) (mul_le_of_le_one_left hnn h2)

/-- The lower cutoff never exceeds the upper cutoff, for every decision
rule. -/
theorem cutoffs_lower_le_upper (rule : String) (preds : List ℚ) :
    (cutoffs rule preds).2 ≤ (cutoffs rule preds).1 := by
  unfold cutoffs
  split_ifs
  · exact le_refl _
  · exact npQuantile_mono preds (1/4) (3/4) (by norm_num) (by norm_num) (by norm_num)
  · exact npQuantile_mono preds (1/8) (7/8) (by norm_num) (by norm_num) (by norm_num)
  · exact le_refl 0

/-- The classification at an in-range position, unfolded. -/
theorem classifyPreds_getD (rule : String) (preds : List ℚ) (i : ℕ)
    (hi : i < preds.length) :
    (classifyPreds rule preds).getD i 0 =
      (if (cutoffs rule preds).1 < preds.getD i 0 then 1
       else if preds.getD i 0 < (cutoffs rule preds).2 then -1 else 0) := by
  unfold classifyPreds
  obtain ⟨v, hv⟩ : ∃ v, preds[i]? = some v := ⟨_, List.getElem?_eq_getElem hi⟩
  rw [List.getD_eq_getElem?_getD, List.getElem?_map, hv, List.getD_eq_getElem?_getD, hv]
  rfl

/-- The three outcomes of the bucketing conditional, given that the lower
cutoff is at most the upper cutoff. -/
theorem classify_value_iff (x upper lower : ℚ) (hlu : lower ≤ upper) :
    ((if upper < x then (1 : ℤ) else if x < lower then -1 else 0) = 1 ↔ upper < x)
    ∧ ((if upper < x then (1 : ℤ) else if x < lower then -1 else 0) = -1 ↔ x < lower)
    ∧ ((x = upper ∨ x = lower) →
        (if upper < x then (1 : ℤ) else if x < lower then -1 else 0) = 0) := by
  refine ⟨?_, ?_, ?_⟩
  · split_ifs with h1 h2
    · simpa using h1
    · constructor
      · intro habs
        exact absurd habs (by decide)
      · intro hx
        exact absurd hx (lt_asymm (lt_of_lt_of_le h2 hlu))
    · constructor
      · intro habs
        exact absurd habs (by decide)
      · intro hx
        exact absurd hx h1
  · split_ifs with h1 h2
    · constructor
      · intro habs
        exact absurd habs (by decide)
      · intro hx
        exact absurd h1 (lt_asymm (lt_of_lt_of_le hx hlu))
    · simpa using h2
    · constructor
      · intro habs
        exact absurd habs (by decide)
      · intro hx
        exact absurd hx h2
  · rintro (rfl | rfl)
    · rw [if_neg (lt_irrefl x), if_neg (not_lt.mpr hlu)]
    · rw [if_neg (not_lt.mpr hlu), if_neg (lt_irrefl x)]

/-- C3: classification follows the rule's quantile cutoffs on the
cross-section's predictions: under `'median'` a ticker is long iff its
prediction is strictly above `np.median` and short iff strictly below;
under `'quartile'` the cutoffs are the 0.75- and 0.25-quantiles; under
`'octile'` the 0.875- and 0.125-quantiles; a prediction exactly at a
cutoff is classified neutral. -/
theorem classification_follows_quantile_cutoffs (preds : List ℚ) (i : ℕ)
    (hi : i < preds.length) :
    ((classifyPreds "median" preds).getD i 0 = 1 ↔ npMedian preds < preds.getD i 0)
    ∧ ((classifyPreds "median" preds).getD i 0 = -1 ↔ preds.getD i 0 < npMedian preds)
    ∧ (preds.getD i 0 = npMedian preds → (classifyPreds "median" preds).getD i 0 = 0)
    ∧ ((classifyPreds "quartile" preds).getD i 0 = 1
        ↔ npQuantile preds (3/4) < preds.getD i 0)
    ∧ ((classifyPreds "quartile" preds).getD i 0 = -1
        ↔ preds.getD i 0 < npQuantile preds (1/4))
    ∧ ((preds.getD i 0 = npQuantile preds (3/4) ∨ preds.getD i 0 = npQuantile preds (1/4)) →
        (classifyPreds "quartile" preds).getD i 0 = 0)
    ∧ ((classifyPreds "octile" preds).getD i 0 = 1
        ↔ npQuantile preds (7/8) < preds.getD i 0)
    ∧ ((classifyPreds "octile" preds).getD i 0 = -1
        ↔ preds.getD i 0 < npQuantile preds (1/8))
    ∧ ((preds.getD i 0 = npQuantile preds (7/8) ∨ preds.getD i 0 = npQuantile preds (1/8)) →
        (classifyPreds "octile" preds).getD i 0 = 0) := by
  have hm : (classifyPreds "median" preds).getD i 0 =
      (if npMedian preds < preds.getD i 0 then 1
       else if preds.getD i 0 < npMedian preds then -1 else 0) := by
    rw [classifyPreds_getD _ _ _ hi]
    rfl
  have hq : (classifyPreds "quartile" preds).getD i 0 =
      (if npQuantile preds (3/4) < preds.getD i 0 then 1
       else if preds.getD i 0 < npQuantile preds (1/4) then -1 else 0) := by
    rw [classifyPreds_getD _ _ _ hi]
    rfl
  have ho : (classifyPreds "octile" preds).getD i 0 =
      (if npQuantile preds (7/8) < preds.getD i 0 then 1
       else if preds.getD i 0 < npQuantile preds (1/8) then -1 else 0) := by
    rw [classifyPreds_getD _ _ _ hi]
    rfl
  have hmed := classify_value_iff (preds.getD i 0) (npMedian preds) (npMedian preds) le_rfl
  have hqrt := classify_value_iff (preds.getD i 0)
    (npQuantile preds (3/4)) (npQuantile preds (1/4))
    (npQuantile_mono preds (1/4) (3/4) (by norm_num) (by norm_num) (by norm_num))
  have hoct := classify_value_iff (preds.getD i 0)
    (npQuantile preds (7/8)) (npQuantile preds (1/8))
    (npQuantile_mono preds (1/8) (7/8) (by norm_num) (by norm_num) (by norm_num))
  rw [hm, hq, ho]
  exact ⟨hmed.1, hmed.2.1, fun hx => hmed.2.2 (Or.inl hx),
    hqrt.1, hqrt.2.1, hqrt.2.2, hoct.1, hoct.2.1, hoct.2.2⟩

/-- Witness for `classification_follows_quantile_cutoffs`: on the
predictions `[1, 2, 3, 4]` the last one is above the median, hence
long. -/
theorem classification_follows_quantile_cutoffs_witness :
    (classifyPreds "median" ([1, 2, 3, 4] : List ℚ)).getD 3 0 = 1 := by
  apply (classification_follows_quantile_cutoffs [1, 2, 3, 4] 3 (by norm_num)).1.mpr
  have hmval : npMedian ([1, 2, 3, 4] : List ℚ) = 5/2 := by
    norm_num [npMedian, List.insertionSort, List.orderedInsert]
  rw [hmval]
  norm_num

end NNRatios
